import Mathlib

/-!
Verification development for the GF(2) bit-vector kernel (`mzd_additional.c`)
and the three-party MPC share layer (`mpc.c`) of the fish-begol repository.

The machine word is `uint64_t` (`m4ri_radix = 64`); a word is modelled as a
`Nat` understood modulo `2^64` (all kernel writes keep words below `2^64`,
which theorems track as explicit hypotheses where it matters).  A one-row
vector (`mzd_t` with `nrows = 1`) is a column count together with the list of
its `width = ⌈ncols/64⌉` row words, little-endian: `words[0]` holds bits
0..63.  A matrix is a list of rows, each a list of words.

All definitions follow the portable scalar paths of the C source (the SIMD
paths sit behind `#ifdef WITH_OPT`); the spec states that the scalar fallback
is the bit-for-bit reference for the SIMD paths.
-/

namespace FishBegol

/-- Number of words needed to store `c` column bits: `(c + m4ri_radix - 1) / m4ri_radix`. -/
def width (c : Nat) : Nat := (c + 63) / 64

/-- `__M4RI_LEFT_BITMASK(c % m4ri_radix)`: all-ones when `c` is a multiple of 64,
otherwise the low `c % 64` bits set. -/
def highBitmask (c : Nat) : Nat := if c % 64 = 0 then 2 ^ 64 - 1 else 2 ^ (c % 64) - 1

/-- Apply `&&& m` to the last element of a word list (the `*(resptr - 1) &= mask`
step of the scalar kernel paths). -/
def maskLast (m : Nat) : List Nat → List Nat
  | [] => []
  | [x] => [x &&& m]
  | x :: y :: t => x :: maskLast m (y :: t)

/-- A one-row `mzd_t`: column count and the row's words. -/
structure Vec where
  ncols : Nat
  words : List Nat
deriving DecidableEq

/-- A general `mzd_t` used as a matrix: `rows` lists each row's words. -/
structure Mat where
  nrows : Nat
  ncols : Nat
  rows : List (List Nat)
deriving DecidableEq

instance : Inhabited Vec := ⟨⟨0, []⟩⟩

/-- `mzd_local_init(1, c)`: a zero-filled one-row vector. -/
def mzd_local_init (c : Nat) : Vec := ⟨c, List.replicate (width c) 0⟩

/-- `mzd_local_copy(dst, src)` for one-row vectors: the destination receives the
source's row words. -/
def mzd_local_copy (src : Vec) : Vec := src

/-- Word-wise XOR of two word lists. -/
def xorWords (a b : List Nat) : List Nat := List.zipWith (fun x y => x ^^^ y) a b

/-- Word-wise AND of two word lists. -/
def andWords (a b : List Nat) : List Nat := List.zipWith (fun x y => x &&& y) a b

/-- `mzd_xor` (scalar path): word-wise XOR over `first->width` words, then the
last word is masked with `first->high_bitmask`. -/
def mzd_xor (first second : Vec) : Vec :=
  ⟨first.ncols, maskLast (highBitmask first.ncols) (xorWords first.words second.words)⟩

/-- `mzd_and` (scalar path): word-wise AND over `first->width` words, then the
last word is masked with `first->high_bitmask`. -/
def mzd_and (first second : Vec) : Vec :=
  ⟨first.ncols, maskLast (highBitmask first.ncols) (andWords first.words second.words)⟩

/-- The word list produced by `mzd_shift_right` for `count ≠ 0`: word `i`
becomes `(v[i] >> count) | (v[i+1] << (64 - count))` and the final word is just
`v[last] >> count`. -/
def shiftRightWords (count : Nat) : List Nat → List Nat
  | [] => []
  | [w] => [w >>> count]
  | w :: w2 :: t => ((w >>> count) ||| ((w2 <<< (64 - count)) % 2 ^ 64)) ::
      shiftRightWords count (w2 :: t)

/-- Carry-passing helper for `mzd_shift_left`: emits, for each word `w` with
lower neighbour `prev`, `(w << count) | (prev >> (64 - count))`. -/
def shiftLeftAux (count prev : Nat) : List Nat → List Nat
  | [] => []
  | w :: t => (((w <<< count) % 2 ^ 64) ||| (prev >>> (64 - count))) :: shiftLeftAux count w t

/-- The word list produced by `mzd_shift_left` for `count ≠ 0`: word 0 becomes
`v[0] << count` and word `i ≥ 1` becomes `(v[i] << count) | (v[i-1] >> (64 - count))`.
No mask is applied (the C routine never touches `high_bitmask`). -/
def shiftLeftWords (count : Nat) : List Nat → List Nat
  | [] => []
  | w :: t => ((w <<< count) % 2 ^ 64) :: shiftLeftAux count w t

/-- `mzd_shift_right(res, val, count)`: a zero count copies `val`; otherwise the
whole row is shifted right by `count < 64` bit positions. -/
def mzd_shift_right (val : Vec) (count : Nat) : Vec :=
  if count = 0 then mzd_local_copy val
  else ⟨val.ncols, shiftRightWords count val.words⟩

/-- `mzd_shift_left(res, val, count)`: a zero count copies `val`; otherwise the
whole row is shifted left by `count < 64` bit positions. -/
def mzd_shift_left (val : Vec) (count : Nat) : Vec :=
  if count = 0 then mzd_local_copy val
  else ⟨val.ncols, shiftLeftWords count val.words⟩

/-- `mzd_randomize_ssl(val)`: the CSPRNG fills all `width` words (modelled by the
explicit `rand` argument), then the last word is masked with `high_bitmask`. -/
def mzd_randomize_ssl (val : Vec) (rand : List Nat) : Vec :=
  ⟨val.ncols, maskLast (highBitmask val.ncols) rand⟩

/-- One `idx & 0x1` accumulation of `mzd_addmul_v` (scalar path): XOR the matrix
row into the accumulator and mask the accumulator's last word with the matrix's
`high_bitmask`. -/
def addmulStep (m : Nat) (cw row : List Nat) : List Nat := maskLast m (xorWords cw row)

/-- The `while (idx)` loop of `mzd_addmul_v` (scalar path) for one word of `v`:
bit 0 of `idx` decides whether the row at hand is accumulated, then the row
pointer advances by one row and `idx` is shifted down. -/
def addmulWord (m : Nat) (cw : List Nat) (rows : List (List Nat)) (idx : Nat) : List Nat :=
  if idx = 0 then cw
  else addmulWord m (if idx % 2 = 1 then addmulStep m cw (rows.headD []) else cw)
    rows.tail (idx / 2)
termination_by idx
decreasing_by exact Nat.div_lt_self (Nat.pos_of_ne_zero (by assumption)) (by norm_num)

/-- The outer word loop of `mzd_addmul_v` (scalar path): word `w` of `v` selects
among the 64 rows starting at `A->rows[w * 64]`. -/
def addmulWords (m : Nat) : List Nat → List Nat → List (List Nat) → List Nat
  | cw, [], _ => cw
  | cw, vw :: vws, rows => addmulWords m (addmulWord m cw rows vw) vws (rows.drop 64)

/-- Unmasked companion of `addmulWord`, used to relate the in-loop masking of
the scalar path to a single final mask. -/
def addmulWordN (cw : List Nat) (rows : List (List Nat)) (idx : Nat) : List Nat :=
  if idx = 0 then cw
  else addmulWordN (if idx % 2 = 1 then xorWords cw (rows.headD []) else cw) rows.tail (idx / 2)
termination_by idx
decreasing_by exact Nat.div_lt_self (Nat.pos_of_ne_zero (by assumption)) (by norm_num)

/-- Unmasked companion of `addmulWords`. -/
def addmulWordsN : List Nat → List Nat → List (List Nat) → List Nat
  | cw, [], _ => cw
  | cw, vw :: vws, rows => addmulWordsN (addmulWordN cw rows vw) vws (rows.drop 64)

/-- `mzd_addmul_v(c, v, A)`: `NULL` on a dimension mismatch, otherwise `c ⊕= v · A`
via the scalar bit loop. -/
def mzd_addmul_v (c v : Vec) (A : Mat) : Option Vec :=
  if A.ncols ≠ c.ncols ∨ A.nrows ≠ v.ncols then none
  else some ⟨c.ncols, addmulWords (highBitmask A.ncols) c.words v.words A.rows⟩

/-- `mzd_row_clear_offset(c, 0, 0)`: row 0 of `c` is zeroed. -/
def mzd_row_clear (c : Vec) : Vec := ⟨c.ncols, List.replicate (width c.ncols) 0⟩

/-- `mzd_mul_v(c, v, At)` with `c = NULL`: after the `At->nrows == v->ncols`
check a zero vector of `At->ncols` columns is allocated and `mzd_addmul_v` runs. -/
def mzd_mul_v_new (v : Vec) (At : Mat) : Option Vec :=
  if At.nrows ≠ v.ncols then none
  else mzd_addmul_v (mzd_local_init At.ncols) v At

/-- `mzd_mul_v(c, v, At)` with an existing destination `c`.  The pair returned is
(function result, final contents of the destination buffer): the C routine
clears `c` in place with `mzd_row_clear_offset` before `mzd_addmul_v` performs
its own `At->ncols == c->ncols` check, so `c` is mutated even when that check
fails. -/
def mzd_mul_v_dst (c v : Vec) (At : Mat) : Option Vec × Vec :=
  if At.nrows ≠ v.ncols then (none, c)
  else
    let c0 := mzd_row_clear c
    match mzd_addmul_v c0 v At with
    | none => (none, c0)
    | some r => (some r, r)

/-! ## MPC share layer (`mpc.c`) -/

/-- A share triple (`SC_PROOF = 3` parties). -/
structure Triple where
  t0 : Vec
  t1 : Vec
  t2 : Vec
deriving DecidableEq

/-- The two live shares on the verifier side (`SC_VERIFY = 2`). -/
structure Pair where
  p0 : Vec
  p1 : Vec
deriving DecidableEq

/-- `view_t`: the per-party view tape, three one-row vectors. -/
structure View where
  s0 : Vec
  s1 : Vec
  s2 : Vec
deriving DecidableEq

/-- The per-party body of the `mpc_and` loop, in the order the C code issues the
kernel calls: `res = a[m]∧b[m]`, `res ⊕= a[j]∧b[m]`, `res ⊕= a[m]∧b[j]`,
`res ⊕= r[m]`, `res ⊕= r[j]`. -/
def mpcAndRes (am bm aj bj rm rj : Vec) : Vec :=
  mzd_xor (mzd_xor (mzd_xor (mzd_xor (mzd_and am bm) (mzd_and aj bm)) (mzd_and am bj)) rm) rj

/-- `mpc_and(res, first, second, r, view, viewshift, buffer)`: computes the three
share results, then shifts each right by `viewshift` and XORs it into the
party's view tape.  Returns the result triple and the updated view. -/
def mpc_and (first second r : Triple) (view : View) (viewshift : Nat) : Triple × View :=
  let res0 := mpcAndRes first.t0 second.t0 first.t1 second.t1 r.t0 r.t1
  let res1 := mpcAndRes first.t1 second.t1 first.t2 second.t2 r.t1 r.t2
  let res2 := mpcAndRes first.t2 second.t2 first.t0 second.t0 r.t2 r.t0
  (⟨res0, res1, res2⟩,
   ⟨mzd_xor view.s0 (mzd_shift_right res0 viewshift),
    mzd_xor view.s1 (mzd_shift_right res1 viewshift),
    mzd_xor view.s2 (mzd_shift_right res2 viewshift)⟩)

/-- `mpc_and_verify(res, first, second, r, view, mask, viewshift, buffer)`:
party 0 (`m < SC_VERIFY - 1`) is computed from the inputs and XORed (shifted)
into `view->s[0]`; party `SC_VERIFY - 1 = 1` is read back from the committed
view tape: `view->s[1]` shifted left by `viewshift` and ANDed with `mask`.
`view->s[1]` and `view->s[2]` are never written. -/
def mpc_and_verify (first second r : Pair) (view : View) (mask : Vec) (viewshift : Nat) :
    Pair × View :=
  let res0 := mpcAndRes first.p0 second.p0 first.p1 second.p1 r.p0 r.p1
  let view' : View := ⟨mzd_xor view.s0 (mzd_shift_right res0 viewshift), view.s1, view.s2⟩
  let res1 := mzd_and (mzd_shift_left view.s1 viewshift) mask
  (⟨res0, res1⟩, view')

/-- `mpc_const_add(result, first, second, sc, c)`: XORs the public constant into
slot 0 when `c == 0`, into slot `sc - 1` when `c == sc`, and does nothing
otherwise.  Shares are modelled as lists of length `sc`. -/
def mpc_const_add (result first : List Vec) (second : Vec) (sc c : Nat) : List Vec :=
  if c = 0 then result.set 0 (mzd_xor (first.getD 0 default) second)
  else if c = sc then result.set (sc - 1) (mzd_xor (first.getD (sc - 1) default) second)
  else result

/-- `mpc_reconstruct_from_share(dst, shared_vec)` with a fresh destination:
`s0 ⊕ s1 ⊕ s2`. -/
def mpc_reconstruct_from_share (t : Triple) : Vec := mzd_xor (mzd_xor t.t0 t.t1) t.t2

/-- `mpc_init_share_vector(v)`: `s0` and `s1` are randomized (and last-word
masked), `s2 = s0 ⊕ s1 ⊕ v`.  The two CSPRNG outputs are explicit arguments. -/
def mpc_init_share_vector (v : Vec) (rand0 rand1 : List Nat) : Triple :=
  let s0 := mzd_randomize_ssl ⟨v.ncols, List.replicate (width v.ncols) 0⟩ rand0
  let s1 := mzd_randomize_ssl ⟨v.ncols, List.replicate (width v.ncols) 0⟩ rand1
  let s2 := mzd_xor (mzd_xor s0 s1) v
  ⟨s0, s1, s2⟩

/-- The padding invariant: the unused high bits of the row's last word are zero,
i.e. the last word is unchanged by `high_bitmask`. -/
def padOk (v : Vec) : Prop := v.words.getLastD 0 &&& highBitmask v.ncols = v.words.getLastD 0

instance (v : Vec) : Decidable (padOk v) := by unfold padOk; infer_instance

/-- Shape predicate: a one-row vector with `n` columns and a full complement of
row words. -/
def Vwf (n : Nat) (v : Vec) : Prop := v.ncols = n ∧ v.words.length = width n

instance (n : Nat) (v : Vec) : Decidable (Vwf n v) := by unfold Vwf; infer_instance

/-- Word `i` of a one-row vector. -/
def wordAt (v : Vec) (i : Nat) : Nat := v.words.getD i 0

/-- Mask applied by the scalar kernel paths when word `i` is the last word of an
`n`-column row. -/
def maskIf (n i x : Nat) : Nat := if i + 1 = width n then x &&& highBitmask n else x

/-- Modelled from the spec's scalar reference algorithm for `mul_v`: start from
the zero vector; for each word index `w` of `v` and each set bit `j` of that
word, XOR row `w*64 + j` of `A` into `c`; the masked final-word rule applies
to `c`. -/
def mulVScalarSpec (v : Vec) (A : Mat) : Vec :=
  ⟨A.ncols, maskLast (highBitmask A.ncols)
    ((List.range v.words.length).foldl (fun cw w =>
      (List.range 64).foldl (fun cw2 j =>
        if (v.words.getD w 0).testBit j then xorWords cw2 (A.rows.getD (w * 64 + j) [])
        else cw2) cw)
      (List.replicate (width A.ncols) 0))⟩

/-! ## Word-level bit identities -/

theorem land_mask_idem (x m : Nat) : (x &&& m) &&& m = x &&& m := by
  apply Nat.eq_of_testBit_eq; intro i
  simp only [Nat.testBit_and]
  cases x.testBit i <;> cases m.testBit i <;> rfl

theorem mask_xor_left (x y m : Nat) : ((x &&& m) ^^^ y) &&& m = (x ^^^ y) &&& m := by
  apply Nat.eq_of_testBit_eq; intro i
  simp only [Nat.testBit_and, Nat.testBit_xor]
  cases x.testBit i <;> cases y.testBit i <;> cases m.testBit i <;> rfl

theorem mask_xor_right (x y m : Nat) : (x ^^^ (y &&& m)) &&& m = (x ^^^ y) &&& m := by
  apply Nat.eq_of_testBit_eq; intro i
  simp only [Nat.testBit_and, Nat.testBit_xor]
  cases x.testBit i <;> cases y.testBit i <;> cases m.testBit i <;> rfl

theorem mask_and_both (x y m : Nat) : ((x &&& m) &&& (y &&& m)) &&& m = (x &&& y) &&& m := by
  apply Nat.eq_of_testBit_eq; intro i
  simp only [Nat.testBit_and]
  cases x.testBit i <;> cases y.testBit i <;> cases m.testBit i <;> rfl

theorem mask_xor_distrib (x y m : Nat) : (x ^^^ y) &&& m = (x &&& m) ^^^ (y &&& m) := by
  apply Nat.eq_of_testBit_eq; intro i
  simp only [Nat.testBit_and, Nat.testBit_xor]
  cases x.testBit i <;> cases y.testBit i <;> cases m.testBit i <;> rfl

/-- Per-word correctness of the (2,3)-decomposition AND gate: the XOR of the
three parties' words is the AND of the reconstructed words; every tape-mask
word appears exactly twice and cancels. -/
theorem mpcAndWord (a0 a1 a2 b0 b1 b2 r0 r1 r2 : Nat) :
    ((((a0 &&& b0) ^^^ (a1 &&& b0) ^^^ (a0 &&& b1)) ^^^ r0 ^^^ r1) ^^^
     (((a1 &&& b1) ^^^ (a2 &&& b1) ^^^ (a1 &&& b2)) ^^^ r1 ^^^ r2)) ^^^
     (((a2 &&& b2) ^^^ (a0 &&& b2) ^^^ (a2 &&& b0)) ^^^ r2 ^^^ r0) =
    ((a0 ^^^ a1) ^^^ a2) &&& ((b0 ^^^ b1) ^^^ b2) := by
  apply Nat.eq_of_testBit_eq; intro i
  simp only [Nat.testBit_and, Nat.testBit_xor]
  cases a0.testBit i <;> cases a1.testBit i <;> cases a2.testBit i <;>
    cases b0.testBit i <;> cases b1.testBit i <;> cases b2.testBit i <;>
    cases r0.testBit i <;> cases r1.testBit i <;> cases r2.testBit i <;> rfl

theorem land_ones (x b : Nat) : x &&& (2 ^ b - 1) = x % 2 ^ b := by
  apply Nat.eq_of_testBit_eq; intro i
  simp only [Nat.testBit_and, Nat.testBit_two_pow_sub_one, Nat.testBit_mod_two_pow]
  cases x.testBit i <;> simp [Bool.and_comm]

theorem testBit_false_of_lt {x b : Nat} (h : x < 2 ^ b) {i : Nat} (hi : b ≤ i) :
    x.testBit i = false :=
  Nat.testBit_lt_two_pow (lt_of_lt_of_le h (Nat.pow_le_pow_right (by norm_num) hi))

theorem testBit_false_of_mod {x k i : Nat} (h : x % 2 ^ k = 0) (hi : i < k) :
    x.testBit i = false := by
  obtain ⟨q, hq⟩ := Nat.dvd_of_mod_eq_zero h
  subst hq
  rw [Nat.testBit_to_div_mod]
  have h1 : 2 ^ k = 2 ^ i * 2 ^ (k - i) := by rw [← pow_add]; congr 1; omega
  rw [h1, Nat.mul_assoc, Nat.mul_div_cancel_left _ (Nat.two_pow_pos i)]
  have h2 : 2 ^ (k - i) = 2 * 2 ^ (k - i - 1) := by
    rw [← pow_succ']; congr 1; omega
  rw [h2, Nat.mul_assoc]
  simp [Nat.mul_mod_right]

/-- Round-trip identity for the lowest word: shifting right then left restores a
word whose low `k` bits are zero; the incoming carry from the word above dies
in the `% 2^64` reduction. -/
theorem roundtripFirst {k w0 w1 : Nat} (hk0 : 0 < k) (hk : k < 64) (hw0 : w0 < 2 ^ 64)
    (hlow : w0 % 2 ^ k = 0) :
    ((((w0 >>> k) ||| ((w1 <<< (64 - k)) % 2 ^ 64)) <<< k) % 2 ^ 64) = w0 := by
  apply Nat.eq_of_testBit_eq; intro j
  simp only [Nat.testBit_mod_two_pow, Nat.testBit_shiftLeft, Nat.testBit_or,
    Nat.testBit_shiftRight]
  by_cases hj64 : j < 64
  · by_cases hjk : k ≤ j
    · have h1 : k + (j - k) = j := by omega
      have h2 : ¬ (64 - k ≤ j - k) := by omega
      have h3 : j - k < 64 := by omega
      simp [hj64, hjk, h1, h2, h3]
    · simp [hj64, hjk, testBit_false_of_mod hlow (by omega : j < k)]
  · simp [hj64, testBit_false_of_lt hw0 (by omega : 64 ≤ j)]

/-- Round-trip identity for an inner word `b` with lower neighbour `a` and upper
neighbour `c`: the left shift restores the high bits of `b` and the carry from
the word below restores its low `k` bits. -/
theorem roundtripMid {k a b c : Nat} (hk0 : 0 < k) (hk : k < 64) (ha : a < 2 ^ 64)
    (hb : b < 2 ^ 64) :
    ((((b >>> k) ||| ((c <<< (64 - k)) % 2 ^ 64)) <<< k) % 2 ^ 64) |||
      (((a >>> k) ||| ((b <<< (64 - k)) % 2 ^ 64)) >>> (64 - k)) = b := by
  apply Nat.eq_of_testBit_eq; intro j
  simp only [Nat.testBit_mod_two_pow, Nat.testBit_shiftLeft, Nat.testBit_or,
    Nat.testBit_shiftRight]
  by_cases hj64 : j < 64
  · by_cases hjk : k ≤ j
    · have h1 : k + (j - k) = j := by omega
      have h2 : ¬ (64 - k ≤ j - k) := by omega
      have h3 : j - k < 64 := by omega
      have h4 : a.testBit (k + (64 - k + j)) = false := testBit_false_of_lt ha (by omega)
      have h5 : ¬ (64 - k + j < 64) := by omega
      simp [hj64, hjk, h1, h2, h3, h4, h5]
    · have h4 : a.testBit (k + (64 - k + j)) = false := testBit_false_of_lt ha (by omega)
      have h5 : 64 - k + j < 64 := by omega
      have h6 : 64 - k ≤ 64 - k + j := by omega
      have h7 : 64 - k + j - (64 - k) = j := by omega
      simp [hj64, hjk, h4, h5, h6, h7]
  · have h4 : a.testBit (k + (64 - k + j)) = false := testBit_false_of_lt ha (by omega)
    have h5 : ¬ (64 - k + j < 64) := by omega
    simp [hj64, h4, h5, testBit_false_of_lt hb (by omega : 64 ≤ j)]

/-! ## List access lemmas -/

theorem maskLast_length (m : Nat) : ∀ ws : List Nat, (maskLast m ws).length = ws.length
  | [] => rfl
  | [_] => rfl
  | _ :: y :: t => by
    simp only [maskLast, List.length_cons]
    rw [maskLast_length m (y :: t)]
    simp

theorem maskLast_getD (m : Nat) : ∀ (ws : List Nat) (i : Nat),
    (maskLast m ws).getD i 0 = if i + 1 = ws.length then ws.getD i 0 &&& m else ws.getD i 0
  | [], i => by simp [maskLast]
  | [x], 0 => rfl
  | [x], i + 1 => by simp [maskLast]
  | x :: y :: t, 0 => by
    have : ¬ (0 + 1 = (x :: y :: t).length) := by simp
    simp [maskLast, this]
  | x :: y :: t, i + 1 => by
    simp only [maskLast, List.getD_cons_succ, List.length_cons]
    rw [maskLast_getD m (y :: t) i]
    simp only [List.length_cons]
    by_cases h : i + 1 = (y :: t).length
    · simp only [List.length_cons] at h
      simp [h]
    · simp only [List.length_cons] at h
      have h2 : ¬ (i + 1 + 1 = t.length + 1 + 1) := by omega
      have h3 : ¬ (i + 1 = t.length + 1) := by omega
      simp [h2, h3]

theorem getLastD_eq_getD : ∀ ws : List Nat, ws.getLastD 0 = ws.getD (ws.length - 1) 0
  | [] => rfl
  | [x] => rfl
  | x :: y :: t => by
    have ih := getLastD_eq_getD (y :: t)
    simp only [List.getLastD_cons] at *
    simpa using ih

theorem zipWith_getD (f : Nat → Nat → Nat) : ∀ (as bs : List Nat) (i : Nat),
    i < as.length → i < bs.length →
    (List.zipWith f as bs).getD i 0 = f (as.getD i 0) (bs.getD i 0)
  | [], _, i, h, _ => absurd h (by simp)
  | _ :: _, [], i, _, h => absurd h (by simp)
  | a :: as, b :: bs, 0, _, _ => rfl
  | a :: as, b :: bs, i + 1, h1, h2 => by
    simp only [List.zipWith_cons_cons, List.getD_cons_succ]
    exact zipWith_getD f as bs i (by simpa using h1) (by simpa using h2)

theorem listext (as bs : List Nat) (hl : as.length = bs.length)
    (h : ∀ i, i < as.length → as.getD i 0 = bs.getD i 0) : as = bs := by
  apply List.ext_getElem hl
  intro i h1 h2
  have := h i h1
  rwa [List.getD_eq_getElem as 0 h1, List.getD_eq_getElem bs 0 h2] at this

theorem shiftRightWords_length (k : Nat) : ∀ ws : List Nat,
    (shiftRightWords k ws).length = ws.length
  | [] => rfl
  | [_] => rfl
  | _ :: y :: t => by
    simp only [shiftRightWords, List.length_cons]
    rw [shiftRightWords_length k (y :: t)]
    simp

theorem shiftRightWords_getD (k : Nat) : ∀ (ws : List Nat) (i : Nat), i + 1 < ws.length →
    (shiftRightWords k ws).getD i 0 =
      (ws.getD i 0 >>> k) ||| ((ws.getD (i + 1) 0 <<< (64 - k)) % 2 ^ 64)
  | [], i, h => absurd h (by simp)
  | [_], i, h => absurd h (by simp)
  | x :: y :: t, 0, _ => rfl
  | x :: y :: t, i + 1, h => by
    simp only [shiftRightWords, List.getD_cons_succ]
    exact shiftRightWords_getD k (y :: t) i (by simpa using h)

theorem shiftRightWords_getD_last (k : Nat) : ∀ (ws : List Nat), ws ≠ [] →
    (shiftRightWords k ws).getD (ws.length - 1) 0 = ws.getD (ws.length - 1) 0 >>> k
  | [], h => absurd rfl h
  | [x], _ => rfl
  | x :: y :: t, _ => by
    have ih := shiftRightWords_getD_last k (y :: t) (by simp)
    simp only [shiftRightWords, List.length_cons] at *
    simpa using ih

theorem shiftLeftAux_length (k : Nat) : ∀ (prev : Nat) (ws : List Nat),
    (shiftLeftAux k prev ws).length = ws.length
  | _, [] => rfl
  | _, w :: t => by
    simp only [shiftLeftAux, List.length_cons]
    rw [shiftLeftAux_length k w t]

theorem shiftLeftWords_length (k : Nat) (ws : List Nat) :
    (shiftLeftWords k ws).length = ws.length := by
  cases ws with
  | nil => rfl
  | cons w t => simp [shiftLeftWords, shiftLeftAux_length]

theorem shiftLeftAux_getD (k : Nat) : ∀ (prev : Nat) (ws : List Nat) (i : Nat), i < ws.length →
    (shiftLeftAux k prev ws).getD i 0 =
      ((ws.getD i 0 <<< k) % 2 ^ 64) ||| ((prev :: ws).getD i 0 >>> (64 - k))
  | _, [], i, h => absurd h (by simp)
  | _, w :: t, 0, _ => rfl
  | prev, w :: t, i + 1, h => by
    simp only [shiftLeftAux, List.getD_cons_succ]
    exact shiftLeftAux_getD k w t i (by simpa using h)

theorem shiftLeftWords_getD_zero (k : Nat) (w : Nat) (t : List Nat) :
    (shiftLeftWords k (w :: t)).getD 0 0 = (w <<< k) % 2 ^ 64 := rfl

theorem shiftLeftWords_getD_succ (k : Nat) (ws : List Nat) (i : Nat) (h : i + 1 < ws.length) :
    (shiftLeftWords k ws).getD (i + 1) 0 =
      ((ws.getD (i + 1) 0 <<< k) % 2 ^ 64) ||| (ws.getD i 0 >>> (64 - k)) := by
  cases ws with
  | nil => simp at h
  | cons w t =>
    simp only [shiftLeftWords, List.getD_cons_succ]
    rw [shiftLeftAux_getD k w t i (by simpa using h)]

theorem shiftLeftWords_getD_zero_any (k : Nat) (ws : List Nat) :
    (shiftLeftWords k ws).getD 0 0 = (ws.getD 0 0 <<< k) % 2 ^ 64 := by
  cases ws with
  | nil => simp [shiftLeftWords]
  | cons w t => rfl

theorem getD_lt {ws : List Nat} (hb : ∀ w ∈ ws, w < 2 ^ 64) {i : Nat} (hi : i < ws.length) :
    ws.getD i 0 < 2 ^ 64 := by
  rw [List.getD_eq_getElem ws 0 hi]
  exact hb _ (List.getElem_mem hi)

/-- List-level shift round trip: shifting right then left by `0 < k < 64`
restores every word list whose words fit the machine word and whose low `k`
bits are zero. -/
theorem shiftWords_roundtrip {k : Nat} (hk0 : 0 < k) (hk : k < 64) (ws : List Nat)
    (hb : ∀ w ∈ ws, w < 2 ^ 64) (hlow : ws.getD 0 0 % 2 ^ k = 0) :
    shiftLeftWords k (shiftRightWords k ws) = ws := by
  apply listext
  · rw [shiftLeftWords_length, shiftRightWords_length]
  · intro i hi
    rw [shiftLeftWords_length, shiftRightWords_length] at hi
    match i, hi with
    | 0, hi =>
      rw [shiftLeftWords_getD_zero_any]
      by_cases h1 : 1 < ws.length
      · rw [shiftRightWords_getD k ws 0 (by omega)]
        exact roundtripFirst hk0 hk (getD_lt hb hi) hlow
      · have hlen : ws.length = 1 := by omega
        have hlast := shiftRightWords_getD_last k ws (by intro h; simp [h] at hi)
        rw [hlen] at hlast
        simp only [Nat.sub_self] at hlast
        rw [hlast]
        have := @roundtripFirst k (ws.getD 0 0) 0 hk0 hk (getD_lt hb hi) hlow
        simpa using this
    | i + 1, hi =>
      rw [shiftLeftWords_getD_succ k _ (i) (by rw [shiftRightWords_length]; omega)]
      rw [shiftRightWords_getD k ws i (by omega)]
      by_cases h1 : i + 1 + 1 < ws.length
      · rw [shiftRightWords_getD k ws (i + 1) h1]
        exact roundtripMid hk0 hk (getD_lt hb (by omega)) (getD_lt hb hi)
      · have hlen : i + 1 = ws.length - 1 := by omega
        have hlast := shiftRightWords_getD_last k ws (by intro h; simp [h] at hi)
        rw [← hlen] at hlast
        rw [hlast]
        have := @roundtripMid k (ws.getD i 0) (ws.getD (i + 1) 0) 0 hk0 hk
          (getD_lt hb (by omega : i < ws.length)) (getD_lt hb hi)
        simpa using this

/-! ## maskLast structure lemmas -/

theorem maskLast_getLastD (m : Nat) (ws : List Nat) :
    (maskLast m ws).getLastD 0 = ws.getLastD 0 &&& m := by
  rw [getLastD_eq_getD, getLastD_eq_getD, maskLast_length]
  cases ws with
  | nil => simp [maskLast, Nat.zero_and]
  | cons w t =>
    rw [maskLast_getD]
    have : (w :: t).length - 1 + 1 = (w :: t).length := by simp
    simp [this]

theorem maskLast_eq_self {m : Nat} {ws : List Nat} (h : ws.getLastD 0 &&& m = ws.getLastD 0) :
    maskLast m ws = ws := by
  apply listext _ _ (maskLast_length m ws)
  intro i hi
  rw [maskLast_length] at hi
  rw [maskLast_getD]
  by_cases hl : i + 1 = ws.length
  · have hidx : i = ws.length - 1 := by omega
    rw [getLastD_eq_getD, ← hidx] at h
    rw [if_pos hl]
    exact h
  · rw [if_neg hl]

theorem maskLast_maskLast (m : Nat) (ws : List Nat) :
    maskLast m (maskLast m ws) = maskLast m ws := by
  apply maskLast_eq_self
  rw [maskLast_getLastD, land_mask_idem]

theorem maskLast_xorWords_maskLast (m : Nat) (xs ys : List Nat) :
    maskLast m (xorWords (maskLast m xs) ys) = maskLast m (xorWords xs ys) := by
  have hlen1 : (xorWords (maskLast m xs) ys).length = min xs.length ys.length := by
    simp [xorWords, List.length_zipWith, maskLast_length]
  have hlen2 : (xorWords xs ys).length = min xs.length ys.length := by
    simp [xorWords, List.length_zipWith]
  apply listext
  · rw [maskLast_length, maskLast_length, hlen1, hlen2]
  · intro i hi
    rw [maskLast_length, hlen1] at hi
    rw [maskLast_getD, maskLast_getD, hlen1, hlen2]
    simp only [xorWords]
    rw [zipWith_getD _ _ _ _ (by rw [maskLast_length]; omega) (by omega),
      zipWith_getD _ _ _ _ (by omega) (by omega), maskLast_getD]
    by_cases hzip : i + 1 = min xs.length ys.length
    · rw [if_pos hzip, if_pos hzip]
      by_cases hx : i + 1 = xs.length
      · rw [if_pos hx, mask_xor_left]
      · rw [if_neg hx]
    · rw [if_neg hzip, if_neg hzip]
      have hx : ¬ (i + 1 = xs.length) := by omega
      rw [if_neg hx]

/-! ## Vec shape and word-level kernel lemmas -/

theorem highBitmask_pow (c : Nat) :
    highBitmask c = 2 ^ (if c % 64 = 0 then 64 else c % 64) - 1 := by
  unfold highBitmask
  split <;> rfl

theorem Vwf_mzd_xor {n : Nat} {a b : Vec} (ha : Vwf n a) (hb : Vwf n b) :
    Vwf n (mzd_xor a b) := by
  obtain ⟨ha1, ha2⟩ := ha
  obtain ⟨hb1, hb2⟩ := hb
  refine ⟨ha1, ?_⟩
  simp [mzd_xor, maskLast_length, xorWords, List.length_zipWith, ha2, hb2]

theorem Vwf_mzd_and {n : Nat} {a b : Vec} (ha : Vwf n a) (hb : Vwf n b) :
    Vwf n (mzd_and a b) := by
  obtain ⟨ha1, ha2⟩ := ha
  obtain ⟨hb1, hb2⟩ := hb
  refine ⟨ha1, ?_⟩
  simp [mzd_and, maskLast_length, andWords, List.length_zipWith, ha2, hb2]

theorem wordAt_mzd_xor {n : Nat} {a b : Vec} (ha : Vwf n a) (hb : Vwf n b) (i : Nat)
    (hi : i < width n) :
    wordAt (mzd_xor a b) i = maskIf n i (wordAt a i ^^^ wordAt b i) := by
  obtain ⟨ha1, ha2⟩ := ha
  obtain ⟨hb1, hb2⟩ := hb
  unfold wordAt mzd_xor maskIf
  rw [maskLast_getD, xorWords, zipWith_getD _ _ _ _ (by omega) (by omega),
    List.length_zipWith, ha1, ha2, hb2]
  simp

theorem wordAt_mzd_and {n : Nat} {a b : Vec} (ha : Vwf n a) (hb : Vwf n b) (i : Nat)
    (hi : i < width n) :
    wordAt (mzd_and a b) i = maskIf n i (wordAt a i &&& wordAt b i) := by
  obtain ⟨ha1, ha2⟩ := ha
  obtain ⟨hb1, hb2⟩ := hb
  unfold wordAt mzd_and maskIf
  rw [maskLast_getD, andWords, zipWith_getD _ _ _ _ (by omega) (by omega),
    List.length_zipWith, ha1, ha2, hb2]
  simp

/-- Equality of vectors with the same shape from word-level equality. -/
theorem vecext {n : Nat} {a b : Vec} (ha : Vwf n a) (hb : Vwf n b)
    (h : ∀ i, i < width n → wordAt a i = wordAt b i) : a = b := by
  obtain ⟨na, wa⟩ := a
  obtain ⟨nb, wb⟩ := b
  obtain ⟨ha1, ha2⟩ := ha
  obtain ⟨hb1, hb2⟩ := hb
  simp only at ha1 ha2 hb1 hb2
  subst ha1 hb1
  congr 1
  apply listext _ _ (by omega)
  intro i hi
  exact h i (by omega)

theorem mask_xor3 (x y z m : Nat) :
    (((x &&& m) ^^^ (y &&& m)) ^^^ (z &&& m)) &&& m = ((x ^^^ y) ^^^ z) &&& m := by
  apply Nat.eq_of_testBit_eq; intro i
  simp only [Nat.testBit_and, Nat.testBit_xor]
  cases x.testBit i <;> cases y.testBit i <;> cases z.testBit i <;> cases m.testBit i <;> rfl

theorem maskChain5 (x1 x2 x3 y z m : Nat) :
    (((((((x1 &&& m) ^^^ (x2 &&& m)) &&& m) ^^^ (x3 &&& m)) &&& m ^^^ y) &&& m ^^^ z) &&& m)
      = ((((x1 ^^^ x2) ^^^ x3) ^^^ y) ^^^ z) &&& m := by
  apply Nat.eq_of_testBit_eq; intro i
  simp only [Nat.testBit_and, Nat.testBit_xor]
  cases x1.testBit i <;> cases x2.testBit i <;> cases x3.testBit i <;>
    cases y.testBit i <;> cases z.testBit i <;> cases m.testBit i <;> rfl

/-- Word-level description of the per-party result of the AND gate body. -/
theorem wordAt_mpcAndRes {n : Nat} {am bm aj bj rm rj : Vec} (h1 : Vwf n am) (h2 : Vwf n bm)
    (h3 : Vwf n aj) (h4 : Vwf n bj) (h5 : Vwf n rm) (h6 : Vwf n rj) (i : Nat)
    (hi : i < width n) :
    wordAt (mpcAndRes am bm aj bj rm rj) i =
      maskIf n i ((((wordAt am i &&& wordAt bm i) ^^^ (wordAt aj i &&& wordAt bm i)) ^^^
        (wordAt am i &&& wordAt bj i)) ^^^ wordAt rm i ^^^ wordAt rj i) := by
  unfold mpcAndRes
  rw [wordAt_mzd_xor (Vwf_mzd_xor (Vwf_mzd_xor (Vwf_mzd_xor (Vwf_mzd_and h1 h2)
        (Vwf_mzd_and h3 h2)) (Vwf_mzd_and h1 h4)) h5) h6 i hi,
      wordAt_mzd_xor (Vwf_mzd_xor (Vwf_mzd_xor (Vwf_mzd_and h1 h2) (Vwf_mzd_and h3 h2))
        (Vwf_mzd_and h1 h4)) h5 i hi,
      wordAt_mzd_xor (Vwf_mzd_xor (Vwf_mzd_and h1 h2) (Vwf_mzd_and h3 h2))
        (Vwf_mzd_and h1 h4) i hi,
      wordAt_mzd_xor (Vwf_mzd_and h1 h2) (Vwf_mzd_and h3 h2) i hi,
      wordAt_mzd_and h1 h2 i hi, wordAt_mzd_and h3 h2 i hi, wordAt_mzd_and h1 h4 i hi]
  unfold maskIf
  by_cases hlast : i + 1 = width n
  · simp only [hlast, if_pos]
    rw [maskChain5]
  · simp [hlast]

/-- Word-level description of `mpc_reconstruct_from_share`. -/
theorem wordAt_recon {n : Nat} {t : Triple} (h0 : Vwf n t.t0) (h1 : Vwf n t.t1)
    (h2 : Vwf n t.t2) (i : Nat) (hi : i < width n) :
    wordAt (mpc_reconstruct_from_share t) i =
      maskIf n i ((wordAt t.t0 i ^^^ wordAt t.t1 i) ^^^ wordAt t.t2 i) := by
  unfold mpc_reconstruct_from_share
  rw [wordAt_mzd_xor (Vwf_mzd_xor h0 h1) h2 i hi, wordAt_mzd_xor h0 h1 i hi]
  unfold maskIf
  by_cases hlast : i + 1 = width n
  · simp only [hlast, if_pos]
    rw [mask_xor_left]
  · simp [hlast]

/-! ## Relating the scalar multiply loop to the spec's fold -/

theorem headD_eq_getD (l : List (List Nat)) : l.headD [] = l.getD 0 [] := by
  cases l <;> rfl

theorem tail_getD (l : List (List Nat)) (j : Nat) : l.tail.getD j [] = l.getD (j + 1) [] := by
  cases l <;> simp

theorem drop_getD : ∀ (n : Nat) (l : List (List Nat)) (i : Nat),
    (l.drop n).getD i [] = l.getD (n + i) []
  | 0, l, i => by simp
  | n + 1, [], i => by simp
  | n + 1, x :: t, i => by
    have h : n + 1 + i = (n + i) + 1 := by omega
    rw [h]
    simpa using drop_getD n t i

theorem replicate_getD (w i : Nat) : (List.replicate w (0 : Nat)).getD i 0 = 0 := by
  induction w generalizing i with
  | zero => simp
  | succ w ih =>
    cases i with
    | zero => rfl
    | succ i => simpa using ih i

theorem maskLast_replicate_zero (m w : Nat) :
    maskLast m (List.replicate w (0 : Nat)) = List.replicate w 0 := by
  apply maskLast_eq_self
  rw [getLastD_eq_getD, replicate_getD, Nat.zero_and]

theorem foldl_const {α β : Type} : ∀ (l : List β) (a : α), List.foldl (fun x _ => x) a l = a
  | [], _ => rfl
  | _ :: t, a => foldl_const t a

theorem foldl_testBit_zero (rows : List (List Nat)) (l : List Nat) (cw : List Nat) :
    List.foldl (fun cw2 j => if (0 : Nat).testBit j then xorWords cw2 (rows.getD j []) else cw2)
      cw l = cw := by
  simp only [Nat.zero_testBit, Bool.false_eq_true, if_false]
  exact foldl_const l cw

theorem foldl_range_succ {α : Type} (f : α → Nat → α) (a : α) (n : Nat) :
    (List.range (n + 1)).foldl f a =
      (List.range n).foldl (fun acc w => f acc (w + 1)) (f a 0) := by
  rw [List.range_succ_eq_map, List.foldl_cons, List.foldl_map]

/-- The `while (idx)` bit loop equals a fold over bit positions `0..63`. -/
theorem addmulWordN_eq_fold : ∀ (n : Nat) (idx : Nat), idx < 2 ^ n →
    ∀ (cw : List Nat) (rows : List (List Nat)),
    addmulWordN cw rows idx = (List.range n).foldl
      (fun cw2 j => if idx.testBit j then xorWords cw2 (rows.getD j []) else cw2) cw := by
  intro n
  induction n with
  | zero =>
    intro idx hidx cw rows
    have h0 : idx = 0 := by simpa using hidx
    subst h0
    rw [addmulWordN]
    simp
  | succ n ih =>
    intro idx hidx cw rows
    by_cases h0 : idx = 0
    · subst h0
      rw [addmulWordN]
      simp [foldl_testBit_zero]
    · rw [addmulWordN, if_neg h0]
      have hdiv : idx / 2 < 2 ^ n := by
        have h2 : idx < 2 ^ n * 2 := by
          rw [← pow_succ]
          exact hidx
        omega
      rw [ih (idx / 2) hdiv _ rows.tail, foldl_range_succ]
      have hstart : (if idx.testBit 0 then xorWords cw (rows.getD 0 []) else cw) =
          (if idx % 2 = 1 then xorWords cw (rows.headD []) else cw) := by
        rw [headD_eq_getD, Nat.testBit_zero]
        simp
      rw [hstart]
      apply List.foldl_ext
      intro acc j _
      rw [Nat.testBit_succ, tail_getD]

/-- In-loop masking of the bit loop equals one final mask over the unmasked loop. -/
theorem addmulWord_masked (m : Nat) : ∀ (idx : Nat) (cw : List Nat) (rows : List (List Nat)),
    addmulWord m (maskLast m cw) rows idx = maskLast m (addmulWordN cw rows idx) := by
  intro idx
  induction idx using Nat.strong_induction_on with
  | _ idx ih =>
    intro cw rows
    by_cases h0 : idx = 0
    · subst h0
      rw [addmulWord, addmulWordN]
      simp
    · rw [addmulWord, addmulWordN, if_neg h0, if_neg h0]
      have hlt : idx / 2 < idx := Nat.div_lt_self (Nat.pos_of_ne_zero h0) (by norm_num)
      by_cases hbit : idx % 2 = 1
      · rw [if_pos hbit, if_pos hbit]
        unfold addmulStep
        rw [maskLast_xorWords_maskLast]
        exact ih (idx / 2) hlt (xorWords cw (rows.headD [])) rows.tail
      · rw [if_neg hbit, if_neg hbit]
        exact ih (idx / 2) hlt cw rows.tail

theorem addmulWords_masked (m : Nat) : ∀ (vws cw : List Nat) (rows : List (List Nat)),
    addmulWords m (maskLast m cw) vws rows = maskLast m (addmulWordsN cw vws rows)
  | [], cw, rows => rfl
  | vw :: vws, cw, rows => by
    simp only [addmulWords, addmulWordsN]
    rw [addmulWord_masked]
    exact addmulWords_masked m vws (addmulWordN cw rows vw) (rows.drop 64)

/-- The unmasked word loop equals the spec's double fold over word indices and
bit positions. -/
theorem addmulWordsN_eq_fold : ∀ (vws cw : List Nat) (rows : List (List Nat)),
    (∀ w ∈ vws, w < 2 ^ 64) →
    addmulWordsN cw vws rows = (List.range vws.length).foldl
      (fun cw3 w => (List.range 64).foldl
        (fun cw2 j => if (vws.getD w 0).testBit j then xorWords cw2 (rows.getD (w * 64 + j) [])
          else cw2) cw3) cw
  | [], cw, rows, _ => rfl
  | vw :: vws, cw, rows, hb => by
    simp only [addmulWordsN]
    rw [addmulWordsN_eq_fold vws _ (rows.drop 64) (fun w hw => hb w (by simp [hw]))]
    rw [List.length_cons, foldl_range_succ]
    have hstart : (List.range 64).foldl
        (fun cw2 j => if ((vw :: vws).getD 0 0).testBit j
          then xorWords cw2 (rows.getD (0 * 64 + j) []) else cw2) cw =
        addmulWordN cw rows vw := by
      rw [addmulWordN_eq_fold 64 vw (hb vw (by simp)) cw rows]
      apply List.foldl_ext
      intro acc j _
      simp
    rw [hstart]
    apply List.foldl_ext
    intro acc w _
    apply List.foldl_ext
    intro acc2 j _
    rw [drop_getD]
    have harith : 64 + (w * 64 + j) = (w + 1) * 64 + j := by ring_nf
    rw [harith]
    simp

/-- The complete scalar multiply-accumulate loop started on a zero accumulator
computes the words of the spec's scalar reference. -/
theorem mul_v_words (v : Vec) (A : Mat) (hb : ∀ w ∈ v.words, w < 2 ^ 64) :
    addmulWords (highBitmask A.ncols) (List.replicate (width A.ncols) 0) v.words A.rows =
      (mulVScalarSpec v A).words := by
  rw [← maskLast_replicate_zero (highBitmask A.ncols) (width A.ncols)]
  rw [addmulWords_masked, addmulWordsN_eq_fold v.words _ A.rows hb]
  rfl

/-! ## Padding invariant lemmas -/

theorem padOk_maskLast (n : Nat) (ws : List Nat) : padOk ⟨n, maskLast (highBitmask n) ws⟩ := by
  unfold padOk
  simp only
  rw [maskLast_getLastD, land_mask_idem]

theorem padOk_init (nc : Nat) : padOk (mzd_local_init nc) := by
  unfold padOk mzd_local_init
  simp only
  rw [getLastD_eq_getD, replicate_getD, Nat.zero_and]

theorem land_mask_shiftRight {x m b : Nat} (hm : m = 2 ^ b - 1) (h : x &&& m = x)
    (cnt : Nat) : (x >>> cnt) &&& m = x >>> cnt := by
  subst hm
  rw [land_ones] at h
  rw [land_ones]
  have hx : x < 2 ^ b := by
    have := Nat.mod_lt x (Nat.two_pow_pos b)
    omega
  have hle : x >>> cnt ≤ x := by
    rw [Nat.shiftRight_eq_div_pow]
    exact Nat.div_le_self x _
  exact Nat.mod_eq_of_lt (by omega)

theorem padOk_shift_right {val : Vec} (h : padOk val) (cnt : Nat) :
    padOk (mzd_shift_right val cnt) := by
  unfold mzd_shift_right
  by_cases h0 : cnt = 0
  · simpa [h0, mzd_local_copy] using h
  · rw [if_neg h0]
    unfold padOk at *
    simp only at *
    rcases hw : val.words with _ | ⟨w, t⟩
    · simp [hw, shiftRightWords, Nat.zero_and]
    · rw [getLastD_eq_getD, shiftRightWords_length,
        shiftRightWords_getD_last cnt _ (by simp [hw])]
      rw [getLastD_eq_getD, hw] at h
      exact land_mask_shiftRight (highBitmask_pow val.ncols) h cnt

theorem padOk_addmul {c v : Vec} {A : Mat} {r : Vec} (hc : padOk c)
    (h : mzd_addmul_v c v A = some r) : padOk r := by
  unfold mzd_addmul_v at h
  by_cases hcond : A.ncols ≠ c.ncols ∨ A.nrows ≠ v.ncols
  · rw [if_pos hcond] at h
    exact absurd h (by simp)
  · rw [if_neg hcond] at h
    have hnc : A.ncols = c.ncols := by
      by_contra hne
      exact hcond (Or.inl hne)
    have hfix : maskLast (highBitmask A.ncols) c.words = c.words := by
      apply maskLast_eq_self
      rw [hnc]
      exact hc
    injection h with h
    rw [← h, ← hfix, addmulWords_masked, hnc]
    exact padOk_maskLast c.ncols _

theorem padOk_mul_v_new {v : Vec} {A : Mat} {r : Vec} (h : mzd_mul_v_new v A = some r) :
    padOk r := by
  unfold mzd_mul_v_new at h
  by_cases hcond : A.nrows ≠ v.ncols
  · rw [if_pos hcond] at h
    exact absurd h (by simp)
  · rw [if_neg hcond] at h
    exact padOk_addmul (padOk_init A.ncols) h

theorem xor_cancel (a b : Nat) : a ^^^ (a ^^^ b) = b := by
  apply Nat.eq_of_testBit_eq; intro i
  simp only [Nat.testBit_xor]
  cases a.testBit i <;> cases b.testBit i <;> rfl

theorem Vwf_shift_left {n : Nat} {v : Vec} (h : Vwf n v) (k : Nat) :
    Vwf n (mzd_shift_left v k) := by
  obtain ⟨h1, h2⟩ := h
  unfold mzd_shift_left mzd_local_copy
  by_cases h0 : k = 0
  · rw [if_pos h0]
    exact ⟨h1, h2⟩
  · rw [if_neg h0]
    exact ⟨h1, by simpa [shiftLeftWords_length] using h2⟩

theorem Vwf_mpcAndRes {n : Nat} {am bm aj bj rm rj : Vec} (h1 : Vwf n am) (h2 : Vwf n bm)
    (h3 : Vwf n aj) (h4 : Vwf n bj) (h5 : Vwf n rm) (h6 : Vwf n rj) :
    Vwf n (mpcAndRes am bm aj bj rm rj) :=
  Vwf_mzd_xor (Vwf_mzd_xor (Vwf_mzd_xor (Vwf_mzd_xor (Vwf_mzd_and h1 h2) (Vwf_mzd_and h3 h2))
    (Vwf_mzd_and h1 h4)) h5) h6

theorem Vwf_recon {n : Nat} {t : Triple} (h0 : Vwf n t.t0) (h1 : Vwf n t.t1)
    (h2 : Vwf n t.t2) : Vwf n (mpc_reconstruct_from_share t) :=
  Vwf_mzd_xor (Vwf_mzd_xor h0 h1) h2

theorem width_pos {n : Nat} (hn : 0 < n) : 0 < width n := by
  unfold width
  omega

/-! ## Claim theorems -/

/-- Claim C5: `mzd_mul_v` (fresh or existing destination) returns the
vector-matrix product computed by the spec's scalar reference: start from the
zero vector, XOR row `w*64 + j` of `A` into `c` for each set bit `j` of word
`w` of `v`, and apply the final-word mask to `c`. -/
theorem mul_v_scalar_spec (v c : Vec) (At : Mat) (hb : ∀ w ∈ v.words, w < 2 ^ 64)
    (hdim : At.nrows = v.ncols) (hc : At.ncols = c.ncols) :
    mzd_mul_v_new v At = some (mulVScalarSpec v At) ∧
    mzd_mul_v_dst c v At = (some (mulVScalarSpec v At), mulVScalarSpec v At) := by
  have hadd : mzd_addmul_v ⟨At.ncols, List.replicate (width At.ncols) 0⟩ v At
      = some (mulVScalarSpec v At) := by
    unfold mzd_addmul_v
    rw [if_neg (by simp [hdim])]
    rw [show addmulWords (highBitmask At.ncols) (List.replicate (width At.ncols) 0)
        v.words At.rows = (mulVScalarSpec v At).words from mul_v_words v At hb]
    rfl
  constructor
  · unfold mzd_mul_v_new
    rw [if_neg (by simp [hdim])]
    exact hadd
  · unfold mzd_mul_v_dst
    rw [if_neg (by simp [hdim])]
    unfold mzd_row_clear
    rw [← hc]
    simp [hadd]

/-- Witness for C5 at a concrete input, with every hypothesis discharged. -/
theorem mul_v_scalar_spec_witness :
    mzd_mul_v_new ⟨64, [1]⟩ ⟨64, 64, [[3]]⟩ = some (mulVScalarSpec ⟨64, [1]⟩ ⟨64, 64, [[3]]⟩) ∧
    mzd_mul_v_dst ⟨64, [7]⟩ ⟨64, [1]⟩ ⟨64, 64, [[3]]⟩ =
      (some (mulVScalarSpec ⟨64, [1]⟩ ⟨64, 64, [[3]]⟩), mulVScalarSpec ⟨64, [1]⟩ ⟨64, 64, [[3]]⟩) :=
  mul_v_scalar_spec ⟨64, [1]⟩ ⟨64, [7]⟩ ⟨64, 64, [[3]]⟩ (by decide) (by decide) (by decide)

/-- Claim C6 (amended): for `0 < k < 64`, `mzd_shift_right` produces at word
`i < n-1` the value `(v[i] >> k) | (v[i+1] << (64-k))` and at the final word
`v[last] >> k`; the spec's concrete example evaluates to
`[0x4000000000000000, 0x0000000000000001]`, not the value printed in the spec. -/
theorem shift_right_word_formula (val : Vec) (k : Nat) (hk0 : 0 < k) (hk : k < 64) :
    (∀ i, i + 1 < val.words.length →
      wordAt (mzd_shift_right val k) i =
        ((wordAt val i >>> k) ||| ((wordAt val (i + 1) <<< (64 - k)) % 2 ^ 64))) ∧
    (val.words ≠ [] →
      wordAt (mzd_shift_right val k) (val.words.length - 1) =
        wordAt val (val.words.length - 1) >>> k) ∧
    mzd_shift_right ⟨128, [0x8000000000000001, 0x0000000000000002]⟩ 1 =
      ⟨128, [0x4000000000000000, 0x0000000000000001]⟩ := by
  refine ⟨?_, ?_, by decide⟩
  · intro i hi
    unfold wordAt mzd_shift_right
    rw [if_neg (by omega)]
    exact shiftRightWords_getD k val.words i hi
  · intro hne
    unfold wordAt mzd_shift_right
    rw [if_neg (by omega)]
    exact shiftRightWords_getD_last k val.words hne

/-- Counterexample to C6 as stated: the spec's concrete example value
`[0xc000000000000000, 0x0000000000000001]` is not what the code computes
(`2 << 63` overflows to zero, so word 0 is `0x4000000000000000`). -/
theorem shift_right_example_counterexample :
    mzd_shift_right ⟨128, [0x8000000000000001, 0x0000000000000002]⟩ 1 ≠
      ⟨128, [0xc000000000000000, 0x0000000000000001]⟩ := by decide

/-- Witness for C6 at the spec's example input. -/
theorem shift_right_word_formula_witness :
    wordAt (mzd_shift_right ⟨128, [0x8000000000000001, 0x0000000000000002]⟩ 1) 0 =
      ((wordAt ⟨128, [0x8000000000000001, 0x0000000000000002]⟩ 0 >>> 1) |||
        ((wordAt ⟨128, [0x8000000000000001, 0x0000000000000002]⟩ 1 <<< (64 - 1)) % 2 ^ 64)) :=
  (shift_right_word_formula ⟨128, [0x8000000000000001, 0x0000000000000002]⟩ 1
    (by decide) (by decide)).1 0 (by decide)

/-- Claim C7 (amended): every kernel operation except `mzd_shift_left` leaves
the unused high bits of the result's last word zero whenever its operands do:
init, copy, xor, and, shift_right, randomize, mul_v and addmul_v all preserve
the padding invariant.  `mzd_shift_left` does not (see the counterexample). -/
theorem kernel_padding_invariant (nc : Nat) (src a b val c v : Vec) (A : Mat)
    (cnt : Nat) (rand : List Nat) (hsrc : padOk src) (hval : padOk val) (hc : padOk c) :
    padOk (mzd_local_init nc) ∧
    padOk (mzd_local_copy src) ∧
    padOk (mzd_xor a b) ∧
    padOk (mzd_and a b) ∧
    padOk (mzd_shift_right val cnt) ∧
    padOk (mzd_randomize_ssl val rand) ∧
    (∀ r, mzd_mul_v_new v A = some r → padOk r) ∧
    (∀ r, mzd_addmul_v c v A = some r → padOk r) :=
  ⟨padOk_init nc, hsrc, padOk_maskLast _ _, padOk_maskLast _ _, padOk_shift_right hval cnt,
    padOk_maskLast _ _, fun _ h => padOk_mul_v_new h, fun _ h => padOk_addmul hc h⟩

/-- Counterexample to C7 as stated: `mzd_shift_left` on a 1-column vector whose
padding is clean sets a padding bit. -/
theorem shift_left_padding_counterexample :
    padOk ⟨1, [1]⟩ ∧ ¬ padOk (mzd_shift_left ⟨1, [1]⟩ 1) := by decide

/-- Witness for C7 at concrete inputs. -/
theorem kernel_padding_invariant_witness :
    padOk (mzd_xor ⟨1, [1]⟩ ⟨1, [1]⟩) ∧ padOk (mzd_shift_right ⟨1, [1]⟩ 1) := by
  have h := kernel_padding_invariant 1 ⟨1, [1]⟩ ⟨1, [1]⟩ ⟨1, [1]⟩ ⟨1, [1]⟩ ⟨1, [1]⟩ ⟨1, [1]⟩
    ⟨1, 1, [[1]]⟩ 1 [1] (by decide) (by decide) (by decide)
  exact ⟨h.2.2.1, h.2.2.2.2.1⟩

/-- Claim C8 (amended): for `0 < k < 64` and a vector whose BOTTOM `k` bits are
zero (and whose words fit the machine word),
`shift_left(shift_right(v, k), k) = v`.  The round trip drops the low `k` bits,
so the zero-bits hypothesis belongs at the bottom, not the top. -/
theorem shift_roundtrip_low_bits (v : Vec) (k : Nat) (hk0 : 0 < k) (hk : k < 64)
    (hb : ∀ w ∈ v.words, w < 2 ^ 64) (hlow : wordAt v 0 % 2 ^ k = 0) :
    mzd_shift_left (mzd_shift_right v k) k = v := by
  obtain ⟨n, ws⟩ := v
  simp only [mzd_shift_right, mzd_shift_left, if_neg (by omega : ¬ k = 0)]
  rw [shiftWords_roundtrip hk0 hk ws hb hlow]

/-- Counterexample to C8 as stated: the vector `[1]` (64 columns) has its top
bit zero, yet `shift_left(shift_right(v, 1), 1) = [0] ≠ v`. -/
theorem shift_roundtrip_counterexample :
    ((0 : Nat) < 1 ∧ (1 : Nat) < 64 ∧ wordAt ⟨64, [1]⟩ 0 >>> (64 - 1) = 0) ∧
      mzd_shift_left (mzd_shift_right ⟨64, [1]⟩ 1) 1 ≠ (⟨64, [1]⟩ : Vec) := by decide

/-- Witness for C8 at a concrete input. -/
theorem shift_roundtrip_low_bits_witness :
    mzd_shift_left (mzd_shift_right ⟨128, [2, 37]⟩ 1) 1 = (⟨128, [2, 37]⟩ : Vec) :=
  shift_roundtrip_low_bits ⟨128, [2, 37]⟩ 1 (by decide) (by decide) (by decide) (by decide)

/-- Claim C9 (amended): with `sc = 3`, `mpc_const_add` XORs the constant into
slot 0 when the slot argument `c` is 0, and into slot `sc - 1 = 2` when
`c = sc = 3`; every other value of `c` (including 2) is a no-op, and no slot
other than the selected one is ever modified. -/
theorem const_add_slots (result first : List Vec) (second : Vec) (c : Nat)
    (hr : result.length = 3) :
    ∀ i, i < 3 → (mpc_const_add result first second 3 c).getD i default =
      if (c = 0 ∧ i = 0) ∨ (c = 3 ∧ i = 2) then mzd_xor (first.getD i default) second
      else result.getD i default := by
  rcases result with _ | ⟨r0, result⟩
  · simp at hr
  rcases result with _ | ⟨r1, result⟩
  · simp at hr
  rcases result with _ | ⟨r2, result⟩
  · simp at hr
  rcases result with _ | ⟨r3, result⟩
  case cons => simp at hr
  intro i hi
  unfold mpc_const_add
  by_cases hc0 : c = 0
  · subst hc0
    interval_cases i <;> simp
  · by_cases hc3 : c = 3
    · subst hc3
      interval_cases i <;> simp
    · rw [if_neg hc0, if_neg hc3]
      interval_cases i <;> simp [hc0, hc3]

/-- Counterexample to C9 as stated: with slot argument 2 — one of the claim's
"used slots 0 and 2" — the code changes nothing, although XORing the constant
into slot 2 would have changed it. -/
theorem const_add_slot_counterexample :
    mpc_const_add [⟨1, [0]⟩, ⟨1, [0]⟩, ⟨1, [0]⟩] [⟨1, [0]⟩, ⟨1, [0]⟩, ⟨1, [0]⟩] ⟨1, [1]⟩ 3 2 =
      [⟨1, [0]⟩, ⟨1, [0]⟩, ⟨1, [0]⟩] ∧
    mzd_xor (⟨1, [0]⟩ : Vec) ⟨1, [1]⟩ ≠ (⟨1, [0]⟩ : Vec) := by decide

/-- Witness for C9: slot argument `c = 3` writes slot 2. -/
theorem const_add_slots_witness :
    (mpc_const_add [⟨1, [0]⟩, ⟨1, [0]⟩, ⟨1, [0]⟩] [⟨1, [0]⟩, ⟨1, [0]⟩, ⟨1, [1]⟩]
      ⟨1, [1]⟩ 3 3).getD 2 default =
      if ((3 : Nat) = 0 ∧ (2 : Nat) = 0) ∨ ((3 : Nat) = 3 ∧ (2 : Nat) = 2)
      then mzd_xor (([⟨1, [0]⟩, ⟨1, [0]⟩, (⟨1, [1]⟩ : Vec)].getD 2 default)) ⟨1, [1]⟩
      else [⟨1, [0]⟩, ⟨1, [0]⟩, (⟨1, [0]⟩ : Vec)].getD 2 default :=
  const_add_slots [⟨1, [0]⟩, ⟨1, [0]⟩, ⟨1, [0]⟩] [⟨1, [0]⟩, ⟨1, [0]⟩, ⟨1, [1]⟩]
    ⟨1, [1]⟩ 3 (by decide) 2 (by decide)

/-- Claim C10: when `At.nrows = v.ncols` but `At.ncols ≠ c.ncols`, `mzd_mul_v`
with an existing destination returns the absent-result sentinel after having
already cleared `c` to zero; only the `At.nrows` vs `v.ncols` mismatch leaves
`c` untouched. -/
theorem mul_v_dst_error_clears (c v : Vec) (At : Mat)
    (h1 : At.nrows = v.ncols) (h2 : At.ncols ≠ c.ncols) :
    mzd_mul_v_dst c v At = (none, mzd_row_clear c) ∧
    (∀ (c' v' : Vec) (At' : Mat), At'.nrows ≠ v'.ncols →
      mzd_mul_v_dst c' v' At' = (none, c')) := by
  constructor
  · have hnone : mzd_addmul_v (mzd_row_clear c) v At = none := by
      unfold mzd_addmul_v
      rw [if_pos (Or.inl (by simpa [mzd_row_clear] using h2))]
    unfold mzd_mul_v_dst
    rw [if_neg (by simp [h1])]
    simp [hnone]
  · intro c' v' At' h
    unfold mzd_mul_v_dst
    rw [if_pos h]

/-- Witness for C10: a 64-column destination, a 64-column input vector and a
64×128 matrix; the destination comes back zeroed. -/
theorem mul_v_dst_error_clears_witness :
    mzd_mul_v_dst ⟨64, [5]⟩ ⟨64, [0]⟩ ⟨64, 128, []⟩ = (none, mzd_row_clear ⟨64, [5]⟩) :=
  (mul_v_dst_error_clears ⟨64, [5]⟩ ⟨64, [0]⟩ ⟨64, 128, []⟩ (by decide) (by decide)).1

/-- Claim C1: for share triples `a`, `b` reconstructing to `x`, `y` and a mask
triple `r` reconstructing to zero, the result triple of the prover AND gate
reconstructs to `x ∧ y`.  (The tape masks in fact cancel pairwise, so the
zero-reconstruction hypothesis is not even needed.) -/
theorem mpc_and_reconstructs (n : Nat) (a b r : Triple) (view : View) (k : Nat)
    (ha0 : Vwf n a.t0) (ha1 : Vwf n a.t1) (ha2 : Vwf n a.t2)
    (hb0 : Vwf n b.t0) (hb1 : Vwf n b.t1) (hb2 : Vwf n b.t2)
    (hr0 : Vwf n r.t0) (hr1 : Vwf n r.t1) (hr2 : Vwf n r.t2)
    (hrz : mpc_reconstruct_from_share r = mzd_local_init n) :
    mpc_reconstruct_from_share (mpc_and a b r view k).1 =
      mzd_and (mpc_reconstruct_from_share a) (mpc_reconstruct_from_share b) := by
  have hR0 : Vwf n (mpc_and a b r view k).1.t0 := Vwf_mpcAndRes ha0 hb0 ha1 hb1 hr0 hr1
  have hR1 : Vwf n (mpc_and a b r view k).1.t1 := Vwf_mpcAndRes ha1 hb1 ha2 hb2 hr1 hr2
  have hR2 : Vwf n (mpc_and a b r view k).1.t2 := Vwf_mpcAndRes ha2 hb2 ha0 hb0 hr2 hr0
  apply vecext (Vwf_recon hR0 hR1 hR2)
    (Vwf_mzd_and (Vwf_recon ha0 ha1 ha2) (Vwf_recon hb0 hb1 hb2))
  intro i hi
  have e1 : wordAt (mpc_reconstruct_from_share (mpc_and a b r view k).1) i =
      maskIf n i ((wordAt (mpcAndRes a.t0 b.t0 a.t1 b.t1 r.t0 r.t1) i ^^^
        wordAt (mpcAndRes a.t1 b.t1 a.t2 b.t2 r.t1 r.t2) i) ^^^
        wordAt (mpcAndRes a.t2 b.t2 a.t0 b.t0 r.t2 r.t0) i) :=
    wordAt_recon hR0 hR1 hR2 i hi
  have f0 := wordAt_mpcAndRes ha0 hb0 ha1 hb1 hr0 hr1 i hi
  have f1 := wordAt_mpcAndRes ha1 hb1 ha2 hb2 hr1 hr2 i hi
  have f2 := wordAt_mpcAndRes ha2 hb2 ha0 hb0 hr2 hr0 i hi
  have eA := wordAt_recon ha0 ha1 ha2 i hi
  have eB := wordAt_recon hb0 hb1 hb2 i hi
  have eAnd := wordAt_mzd_and (Vwf_recon ha0 ha1 ha2) (Vwf_recon hb0 hb1 hb2) i hi
  rw [e1, f0, f1, f2, eAnd, eA, eB]
  unfold maskIf
  by_cases hlast : i + 1 = width n
  · simp only [hlast, if_pos]
    rw [mask_xor3, mask_and_both, mpcAndWord]
  · simp only [hlast, if_neg, if_false]
    rw [mpcAndWord]

/-- Witness for C1 at 1-column shares: `a` and `b` reconstruct to the 1-bit
value 1, `r` is the zero triple. -/
theorem mpc_and_reconstructs_witness :
    mpc_reconstruct_from_share
        (mpc_and ⟨⟨1, [1]⟩, ⟨1, [0]⟩, ⟨1, [0]⟩⟩ ⟨⟨1, [1]⟩, ⟨1, [0]⟩, ⟨1, [0]⟩⟩
          ⟨⟨1, [0]⟩, ⟨1, [0]⟩, ⟨1, [0]⟩⟩ ⟨⟨1, [0]⟩, ⟨1, [0]⟩, ⟨1, [0]⟩⟩ 0).1 =
      mzd_and (mpc_reconstruct_from_share ⟨⟨1, [1]⟩, ⟨1, [0]⟩, ⟨1, [0]⟩⟩)
        (mpc_reconstruct_from_share ⟨⟨1, [1]⟩, ⟨1, [0]⟩, ⟨1, [0]⟩⟩) :=
  mpc_and_reconstructs 1 ⟨⟨1, [1]⟩, ⟨1, [0]⟩, ⟨1, [0]⟩⟩ ⟨⟨1, [1]⟩, ⟨1, [0]⟩, ⟨1, [0]⟩⟩
    ⟨⟨1, [0]⟩, ⟨1, [0]⟩, ⟨1, [0]⟩⟩ ⟨⟨1, [0]⟩, ⟨1, [0]⟩, ⟨1, [0]⟩⟩ 0
    (by decide) (by decide) (by decide) (by decide) (by decide) (by decide)
    (by decide) (by decide) (by decide) (by decide)

/-- Claim C2: word-level description of the prover AND gate: party `m`'s result
word is the masked share formula
`(a[m]∧b[m]) ⊕ (a[m+1]∧b[m]) ⊕ (a[m]∧b[m+1]) ⊕ r[m] ⊕ r[m+1]`, and the view
slot `m` becomes its previous value XOR the result shifted right by
`viewshift`. -/
theorem mpc_and_words_spec (n : Nat) (a b r : Triple) (view : View) (k : Nat)
    (ha0 : Vwf n a.t0) (ha1 : Vwf n a.t1) (ha2 : Vwf n a.t2)
    (hb0 : Vwf n b.t0) (hb1 : Vwf n b.t1) (hb2 : Vwf n b.t2)
    (hr0 : Vwf n r.t0) (hr1 : Vwf n r.t1) (hr2 : Vwf n r.t2) :
    (∀ i, i < width n → wordAt (mpc_and a b r view k).1.t0 i =
      maskIf n i ((((wordAt a.t0 i &&& wordAt b.t0 i) ^^^ (wordAt a.t1 i &&& wordAt b.t0 i)) ^^^
        (wordAt a.t0 i &&& wordAt b.t1 i)) ^^^ wordAt r.t0 i ^^^ wordAt r.t1 i)) ∧
    (∀ i, i < width n → wordAt (mpc_and a b r view k).1.t1 i =
      maskIf n i ((((wordAt a.t1 i &&& wordAt b.t1 i) ^^^ (wordAt a.t2 i &&& wordAt b.t1 i)) ^^^
        (wordAt a.t1 i &&& wordAt b.t2 i)) ^^^ wordAt r.t1 i ^^^ wordAt r.t2 i)) ∧
    (∀ i, i < width n → wordAt (mpc_and a b r view k).1.t2 i =
      maskIf n i ((((wordAt a.t2 i &&& wordAt b.t2 i) ^^^ (wordAt a.t0 i &&& wordAt b.t2 i)) ^^^
        (wordAt a.t2 i &&& wordAt b.t0 i)) ^^^ wordAt r.t2 i ^^^ wordAt r.t0 i)) ∧
    (mpc_and a b r view k).2.s0 =
      mzd_xor view.s0 (mzd_shift_right (mpc_and a b r view k).1.t0 k) ∧
    (mpc_and a b r view k).2.s1 =
      mzd_xor view.s1 (mzd_shift_right (mpc_and a b r view k).1.t1 k) ∧
    (mpc_and a b r view k).2.s2 =
      mzd_xor view.s2 (mzd_shift_right (mpc_and a b r view k).1.t2 k) :=
  ⟨fun i hi => wordAt_mpcAndRes ha0 hb0 ha1 hb1 hr0 hr1 i hi,
   fun i hi => wordAt_mpcAndRes ha1 hb1 ha2 hb2 hr1 hr2 i hi,
   fun i hi => wordAt_mpcAndRes ha2 hb2 ha0 hb0 hr2 hr0 i hi,
   rfl, rfl, rfl⟩

/-- Witness for C2 at 1-column shares with `viewshift = 0`. -/
theorem mpc_and_words_spec_witness :
    wordAt (mpc_and ⟨⟨1, [1]⟩, ⟨1, [1]⟩, ⟨1, [0]⟩⟩ ⟨⟨1, [1]⟩, ⟨1, [0]⟩, ⟨1, [1]⟩⟩
        ⟨⟨1, [1]⟩, ⟨1, [0]⟩, ⟨1, [1]⟩⟩ ⟨⟨1, [0]⟩, ⟨1, [0]⟩, ⟨1, [0]⟩⟩ 0).1.t0 0 =
      maskIf 1 0 ((((wordAt (⟨1, [1]⟩ : Vec) 0 &&& wordAt (⟨1, [1]⟩ : Vec) 0) ^^^
        (wordAt (⟨1, [1]⟩ : Vec) 0 &&& wordAt (⟨1, [1]⟩ : Vec) 0)) ^^^
        (wordAt (⟨1, [1]⟩ : Vec) 0 &&& wordAt (⟨1, [0]⟩ : Vec) 0)) ^^^
        wordAt (⟨1, [1]⟩ : Vec) 0 ^^^ wordAt (⟨1, [0]⟩ : Vec) 0) :=
  (mpc_and_words_spec 1 ⟨⟨1, [1]⟩, ⟨1, [1]⟩, ⟨1, [0]⟩⟩ ⟨⟨1, [1]⟩, ⟨1, [0]⟩, ⟨1, [1]⟩⟩
    ⟨⟨1, [1]⟩, ⟨1, [0]⟩, ⟨1, [1]⟩⟩ ⟨⟨1, [0]⟩, ⟨1, [0]⟩, ⟨1, [0]⟩⟩ 0
    (by decide) (by decide) (by decide) (by decide) (by decide) (by decide)
    (by decide) (by decide) (by decide)).1 0 (by decide)

/-- Claim C3: the verifier AND gate computes party 0 from the inputs (same
masked share formula with `j = m + 1`), XORs its shifted value into
`view.s[0]`, reads party 1 back from the view tape (`view.s[1]` shifted left by
`viewshift`, ANDed with the mask word by word), leaves `view.s[1]` and
`view.s[2]` unwritten, and — being a total function — runs to completion with
no early return on any mismatch. -/
theorem mpc_and_verify_spec (n : Nat) (first second r : Pair) (view : View) (mask : Vec)
    (k : Nat) (hn : 0 < n) (hk0 : 0 < k) (hk : k < 64)
    (ha0 : Vwf n first.p0) (ha1 : Vwf n first.p1)
    (hb0 : Vwf n second.p0) (hb1 : Vwf n second.p1)
    (hr0 : Vwf n r.p0) (hr1 : Vwf n r.p1) (hs1 : Vwf n view.s1) (hm : Vwf n mask) :
    (∀ i, i < width n → wordAt (mpc_and_verify first second r view mask k).1.p0 i =
      maskIf n i ((((wordAt first.p0 i &&& wordAt second.p0 i) ^^^
        (wordAt first.p1 i &&& wordAt second.p0 i)) ^^^
        (wordAt first.p0 i &&& wordAt second.p1 i)) ^^^ wordAt r.p0 i ^^^ wordAt r.p1 i)) ∧
    (mpc_and_verify first second r view mask k).2.s0 =
      mzd_xor view.s0 (mzd_shift_right (mpc_and_verify first second r view mask k).1.p0 k) ∧
    (mpc_and_verify first second r view mask k).2.s1 = view.s1 ∧
    (mpc_and_verify first second r view mask k).2.s2 = view.s2 ∧
    wordAt (mpc_and_verify first second r view mask k).1.p1 0 =
      maskIf n 0 (((wordAt view.s1 0 <<< k) % 2 ^ 64) &&& wordAt mask 0) ∧
    (∀ i, i + 1 < width n → wordAt (mpc_and_verify first second r view mask k).1.p1 (i + 1) =
      maskIf n (i + 1) ((((wordAt view.s1 (i + 1) <<< k) % 2 ^ 64) |||
        (wordAt view.s1 i >>> (64 - k))) &&& wordAt mask (i + 1))) := by
  have hsl : Vwf n (mzd_shift_left view.s1 k) := Vwf_shift_left hs1 k
  refine ⟨fun i hi => wordAt_mpcAndRes ha0 hb0 ha1 hb1 hr0 hr1 i hi, rfl, rfl, rfl, ?_, ?_⟩
  · have e := wordAt_mzd_and hsl hm 0 (width_pos hn)
    have e2 : wordAt (mzd_shift_left view.s1 k) 0 = (wordAt view.s1 0 <<< k) % 2 ^ 64 := by
      unfold wordAt mzd_shift_left
      rw [if_neg (by omega)]
      exact shiftLeftWords_getD_zero_any k view.s1.words
    rw [show (mpc_and_verify first second r view mask k).1.p1 =
        mzd_and (mzd_shift_left view.s1 k) mask from rfl, e, e2]
  · intro i hi
    have e := wordAt_mzd_and hsl hm (i + 1) (by omega)
    have e2 : wordAt (mzd_shift_left view.s1 k) (i + 1) =
        ((wordAt view.s1 (i + 1) <<< k) % 2 ^ 64) ||| (wordAt view.s1 i >>> (64 - k)) := by
      unfold wordAt mzd_shift_left
      rw [if_neg (by omega)]
      exact shiftLeftWords_getD_succ k view.s1.words i (by rw [hs1.2]; omega)
    rw [show (mpc_and_verify first second r view mask k).1.p1 =
        mzd_and (mzd_shift_left view.s1 k) mask from rfl, e, e2]

/-- Witness for C3 at 1-column shares with `viewshift = 1` (the 1-bit tape slot
shifted out and masked back). -/
theorem mpc_and_verify_spec_witness :
    wordAt (mpc_and_verify ⟨⟨1, [1]⟩, ⟨1, [0]⟩⟩ ⟨⟨1, [1]⟩, ⟨1, [1]⟩⟩ ⟨⟨1, [0]⟩, ⟨1, [1]⟩⟩
        ⟨⟨1, [0]⟩, ⟨1, [1]⟩, ⟨1, [0]⟩⟩ ⟨1, [1]⟩ 1).1.p1 0 =
      maskIf 1 0 (((wordAt (⟨1, [1]⟩ : Vec) 0 <<< 1) % 2 ^ 64) &&& wordAt (⟨1, [1]⟩ : Vec) 0) ∧
    (mpc_and_verify ⟨⟨1, [1]⟩, ⟨1, [0]⟩⟩ ⟨⟨1, [1]⟩, ⟨1, [1]⟩⟩ ⟨⟨1, [0]⟩, ⟨1, [1]⟩⟩
        ⟨⟨1, [0]⟩, ⟨1, [1]⟩, ⟨1, [0]⟩⟩ ⟨1, [1]⟩ 1).2.s1 = (⟨1, [1]⟩ : Vec) := by
  have h := mpc_and_verify_spec 1 ⟨⟨1, [1]⟩, ⟨1, [0]⟩⟩ ⟨⟨1, [1]⟩, ⟨1, [1]⟩⟩
    ⟨⟨1, [0]⟩, ⟨1, [1]⟩⟩ ⟨⟨1, [0]⟩, ⟨1, [1]⟩, ⟨1, [0]⟩⟩ ⟨1, [1]⟩ 1
    (by decide) (by decide) (by decide) (by decide) (by decide) (by decide) (by decide)
    (by decide) (by decide) (by decide) (by decide)
  exact ⟨h.2.2.2.2.1, h.2.2.1⟩

/-- Claim C4: `mpc_init_share_vector` sets `s2 = s0 ⊕ s1 ⊕ v`, so the triple
reconstructs to `v` exactly, whatever words the CSPRNG put into `s0` and
`s1`. -/
theorem share_secret_reconstructs (n : Nat) (v : Vec) (rand0 rand1 : List Nat)
    (hv : Vwf n v) (hpad : padOk v)
    (h0 : rand0.length = width n) (h1 : rand1.length = width n) :
    (mpc_init_share_vector v rand0 rand1).t2 =
      mzd_xor (mzd_xor (mpc_init_share_vector v rand0 rand1).t0
        (mpc_init_share_vector v rand0 rand1).t1) v ∧
    mpc_reconstruct_from_share (mpc_init_share_vector v rand0 rand1) = v := by
  refine ⟨rfl, ?_⟩
  have hvn : v.ncols = n := hv.1
  have hs0 : Vwf n (mpc_init_share_vector v rand0 rand1).t0 :=
    ⟨hvn, by simpa [mpc_init_share_vector, mzd_randomize_ssl, maskLast_length] using h0⟩
  have hs1 : Vwf n (mpc_init_share_vector v rand0 rand1).t1 :=
    ⟨hvn, by simpa [mpc_init_share_vector, mzd_randomize_ssl, maskLast_length] using h1⟩
  have hs2 : Vwf n (mpc_init_share_vector v rand0 rand1).t2 :=
    Vwf_mzd_xor (Vwf_mzd_xor hs0 hs1) hv
  apply vecext (Vwf_recon hs0 hs1 hs2) hv
  intro i hi
  have e1 := wordAt_recon hs0 hs1 hs2 i hi
  have e2 : wordAt (mpc_init_share_vector v rand0 rand1).t2 i =
      maskIf n i (maskIf n i (wordAt (mpc_init_share_vector v rand0 rand1).t0 i ^^^
        wordAt (mpc_init_share_vector v rand0 rand1).t1 i) ^^^ wordAt v i) := by
    have ex := wordAt_mzd_xor (Vwf_mzd_xor hs0 hs1) hv i hi
    have ein := wordAt_mzd_xor hs0 hs1 i hi
    rw [show (mpc_init_share_vector v rand0 rand1).t2 =
      mzd_xor (mzd_xor (mpc_init_share_vector v rand0 rand1).t0
        (mpc_init_share_vector v rand0 rand1).t1) v from rfl, ex, ein]
  rw [e1, e2]
  unfold maskIf
  by_cases hlast : i + 1 = width n
  · simp only [hlast, if_pos]
    rw [mask_xor_left, mask_xor_right, xor_cancel]
    have : wordAt v i &&& highBitmask n = wordAt v i := by
      unfold padOk at hpad
      rw [getLastD_eq_getD] at hpad
      have hlen : v.words.length - 1 = i := by
        rw [hv.2]
        omega
      rw [hlen, hvn] at hpad
      exact hpad
    exact this
  · simp only [hlast, if_neg, if_false]
    exact xor_cancel _ _

/-- Witness for C4 at a 1-column secret with concrete CSPRNG words. -/
theorem share_secret_reconstructs_witness :
    (mpc_init_share_vector ⟨1, [1]⟩ [1] [0]).t2 =
      mzd_xor (mzd_xor (mpc_init_share_vector ⟨1, [1]⟩ [1] [0]).t0
        (mpc_init_share_vector ⟨1, [1]⟩ [1] [0]).t1) ⟨1, [1]⟩ ∧
    mpc_reconstruct_from_share (mpc_init_share_vector ⟨1, [1]⟩ [1] [0]) = (⟨1, [1]⟩ : Vec) :=
  share_secret_reconstructs 1 ⟨1, [1]⟩ [1] [0] (by decide) (by decide) (by decide) (by decide)

end FishBegol
